import Mathlib

/-!
Verification of rcdtool (savinmikhail/rcdtool).

Shallow embedding of the first-party Python code:
  - scripts/rcdtool_from_messages.py : input-line parsing, filename
    sanitization, link parsing, and the per-line dedup loop of main().
  - src/rcdtool/rcdtool.py : RCD.get_config, RCD.download_media (its
    control flow, progress throttling, extension inference and the
    download_file keyword-argument compatibility shim).

Strings are modelled with Lean String / List Char.  Character classes
that Python defines over all of Unicode (str.isdigit, the regex classes
backslash-w and backslash-s, str.strip) are modelled by their ASCII
restrictions, which is the alphabet the tool's links and filenames use.
Wall-clock times (float seconds from time.time()) are modelled as
rationals.  External library calls (telethon, configparser, filetype,
os) are modelled as abstract environments of fallible operations.
-/

namespace Rcdtool

/-! ## Python string helpers -/

/-- Whitespace characters stripped by Python str.strip() (ASCII part). -/
def pyIsSpace (c : Char) : Bool :=
  c = ' ' || c = '\t' || c = '\n' || c = '\x0d' || c = '\x0b' || c = '\x0c'

/-- Remove the longest suffix of characters satisfying p
    (the trailing half of Python str.strip). -/
def dropTrailing (p : Char → Bool) : List Char → List Char
  | [] => []
  | c :: cs =>
    match dropTrailing p cs with
    | [] => if p c then [] else [c]
    | d :: ds => c :: d :: ds

/-- Python str.strip(chars): remove leading and trailing characters
    satisfying p. -/
def stripChars (p : Char → Bool) (l : List Char) : List Char :=
  dropTrailing p (l.dropWhile p)

/-- Python str.strip() on a string. -/
def pyStrip (s : String) : String :=
  String.mk (stripChars pyIsSpace s.toList)

/-- Python sep in s (substring containment). -/
def containsSub (sep s : String) : Bool :=
  decide (2 ≤ (s.splitOn sep).length)

/-- Python s.split(sep, 1)[0]: the part before the first occurrence
    of sep (the whole string when sep does not occur). -/
def beforeFirst (sep s : String) : String :=
  (s.splitOn sep).headD ""

/-- Python s.split(sep, 1)[1]: everything after the first occurrence
    of sep (empty when sep does not occur). -/
def afterFirst (sep s : String) : String :=
  String.intercalate sep ((s.splitOn sep).tail)

/-! ## sanitize_filename (scripts/rcdtool_from_messages.py lines 46-69) -/

/-- Python regex word character (ASCII part of backslash-w with
    re.UNICODE): letters, digits and underscore. -/
def isWordChar (c : Char) : Bool :=
  c.isAlphanum || c = '_'

/-- The character class kept by the first re.sub of sanitize_filename:
    word characters, whitespace, and ( ) . - . -/
def keepChar (c : Char) : Bool :=
  isWordChar c || pyIsSpace c || c = '(' || c = ')' || c = '.' || c = '-'

/-- The characters removed by the final .strip(" .-_"). -/
def stripSet (c : Char) : Bool :=
  c = ' ' || c = '.' || c = '-' || c = '_'

/-- re.sub(pattern-for-a-class-p-run, single character u, ...):
    replace every maximal run of characters satisfying p by the single
    character u.  The flag inRun records whether we are inside a run
    whose replacement has already been emitted. -/
def collapseAux (p : Char → Bool) (u : Char) : Bool → List Char → List Char
  | _, [] => []
  | inRun, c :: cs =>
    if p c then
      if inRun then collapseAux p u true cs
      else u :: collapseAux p u true cs
    else c :: collapseAux p u false cs

/-- The three single-character str.replace calls of sanitize_filename:
    "/", "\\" and ":" each become "_". -/
def replaceSeps (l : List Char) : List Char :=
  ((l.map (fun c => if c = '/' then '_' else c)).map
      (fun c => if c = '\\' then '_' else c)).map
    (fun c => if c = ':' then '_' else c)

/-- The body of sanitize_filename after the initial strip:
    replace "/", "\\", ":" with "_", collapse runs of characters
    outside the keep class to "_", collapse whitespace runs to " ",
    collapse runs of two or more "_" to "_" (collapsing every "_" run
    to a single "_" is the same operation), then strip " .-_". -/
def sanitizeCore (l : List Char) : List Char :=
  stripChars stripSet
    (collapseAux (fun c => c = '_') '_' false
      (collapseAux pyIsSpace ' ' false
        (collapseAux (fun c => !(keepChar c)) '_' false (replaceSeps l))))

/-- sanitize_filename from scripts/rcdtool_from_messages.py. -/
def sanitize_filename (name : String) : String :=
  if stripChars pyIsSpace name.toList = [] then "file"
  else if sanitizeCore (stripChars pyIsSpace name.toList) = [] then "file"
  else String.mk (sanitizeCore (stripChars pyIsSpace name.toList))

/-! ## Properties of the sanitize helpers -/

theorem mem_collapseAux (p : Char → Bool) (u : Char) :
    ∀ (l : List Char) (b : Bool) (x : Char), x ∈ collapseAux p u b l →
      x = u ∨ (p x = false ∧ x ∈ l) := by
  intro l
  induction l with
  | nil => intro b x h; simp [collapseAux] at h
  | cons c cs ih =>
    intro b x h
    by_cases hc : p c
    · cases b with
      | true =>
        simp only [collapseAux, hc, if_true, if_pos] at h
        rcases ih true x h with h' | h'
        · exact Or.inl h'
        · exact Or.inr ⟨h'.1, List.mem_cons_of_mem c h'.2⟩
      | false =>
        simp only [collapseAux, hc, if_true, if_neg Bool.false_ne_true,
          List.mem_cons] at h
        rcases h with h' | h'
        · exact Or.inl h'
        · rcases ih true x h' with h'' | h''
          · exact Or.inl h''
          · exact Or.inr ⟨h''.1, List.mem_cons_of_mem c h''.2⟩
    · simp only [collapseAux, hc, if_false, Bool.false_eq_true,
        List.mem_cons] at h
      rcases h with h' | h'
      · subst h'
        exact Or.inr ⟨by simp [hc], List.mem_cons_self _ _⟩
      · rcases ih false x h' with h'' | h''
        · exact Or.inl h''
        · exact Or.inr ⟨h''.1, List.mem_cons_of_mem c h''.2⟩

theorem head_collapseAux_true (p : Char → Bool) (u : Char) :
    ∀ (l : List Char) (x : Char),
      (collapseAux p u true l).head? = some x → p x = false := by
  intro l
  induction l with
  | nil => intro x h; simp [collapseAux] at h
  | cons c cs ih =>
    intro x h
    by_cases hc : p c
    · simp only [collapseAux, hc, if_true, if_pos] at h
      exact ih x h
    · simp only [collapseAux, hc, Bool.false_eq_true, if_false,
        List.head?_cons, Option.some.injEq] at h
      subst h; simp [hc]

theorem head_collapseAux_false (p : Char → Bool) (u : Char) :
    ∀ (l : List Char) (x : Char),
      (collapseAux p u false l).head? = some x → x = u ∨ l.head? = some x := by
  intro l x h
  cases l with
  | nil => simp [collapseAux] at h
  | cons c cs =>
    by_cases hc : p c
    · simp only [collapseAux, hc, if_true, if_neg Bool.false_ne_true,
        List.head?_cons, Option.some.injEq] at h
      exact Or.inl h.symm
    · simp only [collapseAux, hc, Bool.false_eq_true, if_false,
        List.head?_cons, Option.some.injEq] at h
      exact Or.inr (by simp [h])

theorem chain_collapseAux (p : Char → Bool) (u : Char) :
    ∀ (l : List Char) (b : Bool),
      List.Chain' (fun a c => ¬(p a = true ∧ p c = true))
        (collapseAux p u b l) := by
  intro l
  induction l with
  | nil => intro b; simp [collapseAux]
  | cons c cs ih =>
    intro b
    by_cases hc : p c
    · cases b with
      | true =>
        simpa only [collapseAux, hc, if_true, if_pos] using ih true
      | false =>
        simp only [collapseAux, hc, if_true, if_neg Bool.false_ne_true]
        refine List.chain'_cons'.2 ⟨?_, ih true⟩
        intro y hy
        have := head_collapseAux_true p u cs y hy
        simp [this]
    · simp only [collapseAux, hc, Bool.false_eq_true, if_false]
      refine List.chain'_cons'.2 ⟨?_, ih false⟩
      intro y _
      simp [hc]

theorem chain_collapseAux_preserve (p : Char → Bool) (u : Char)
    (R : Char → Char → Prop) (h1 : ∀ x, R x u) (h2 : ∀ x, R u x) :
    ∀ (l : List Char) (b : Bool), List.Chain' R l →
      List.Chain' R (collapseAux p u b l) := by
  intro l
  induction l with
  | nil => intro b _; simp [collapseAux]
  | cons c cs ih =>
    intro b hch
    have htail : List.Chain' R cs := hch.tail
    by_cases hc : p c
    · cases b with
      | true =>
        simpa only [collapseAux, hc, if_true, if_pos] using ih true htail
      | false =>
        simp only [collapseAux, hc, if_true, if_neg Bool.false_ne_true]
        exact List.chain'_cons'.2 ⟨fun y _ => h2 y, ih true htail⟩
    · simp only [collapseAux, hc, Bool.false_eq_true, if_false]
      refine List.chain'_cons'.2 ⟨?_, ih false htail⟩
      intro y hy
      rcases head_collapseAux_false p u cs y hy with h' | h'
      · subst h'; exact h1 c
      · exact (List.chain'_cons'.1 hch).1 y h'

theorem chain_dropWhile (R : Char → Char → Prop) (p : Char → Bool) :
    ∀ (l : List Char), List.Chain' R l → List.Chain' R (l.dropWhile p) := by
  intro l
  induction l with
  | nil => intro h; simpa using h
  | cons c cs ih =>
    intro h
    rw [List.dropWhile_cons]
    split
    · exact ih h.tail
    · exact h

theorem head_dropWhile (p : Char → Bool) :
    ∀ (l : List Char) (x : Char),
      (l.dropWhile p).head? = some x → p x = false := by
  intro l
  induction l with
  | nil => intro x h; simp at h
  | cons c cs ih =>
    intro x h
    by_cases hc : p c
    · rw [List.dropWhile_cons, if_pos hc] at h
      exact ih x h
    · rw [List.dropWhile_cons, if_neg hc] at h
      simp only [List.head?_cons, Option.some.injEq] at h
      subst h
      simpa using hc

theorem dropTrailing_cons (p : Char → Bool) (c : Char) (cs : List Char) :
    dropTrailing p (c :: cs) =
      match dropTrailing p cs with
      | [] => if p c then [] else [c]
      | d :: ds => c :: d :: ds := rfl

theorem head_dropTrailing (p : Char → Bool) :
    ∀ (l : List Char) (x : Char),
      (dropTrailing p l).head? = some x → l.head? = some x := by
  intro l x h
  cases l with
  | nil => simp [dropTrailing] at h
  | cons c cs =>
    rw [dropTrailing_cons] at h
    rcases hrec : dropTrailing p cs with _ | ⟨d, ds⟩ <;> rw [hrec] at h
    · by_cases hc : p c
      · rw [if_pos hc] at h; simp at h
      · rw [if_neg hc] at h
        simp only [List.head?_cons, Option.some.injEq] at h
        simp [h]
    · simp only [List.head?_cons, Option.some.injEq] at h
      simp [h]

theorem mem_dropTrailing (p : Char → Bool) :
    ∀ (l : List Char) (x : Char), x ∈ dropTrailing p l → x ∈ l := by
  intro l
  induction l with
  | nil => intro x h; simp [dropTrailing] at h
  | cons c cs ih =>
    intro x h
    rw [dropTrailing_cons] at h
    rcases hrec : dropTrailing p cs with _ | ⟨d, ds⟩ <;> rw [hrec] at h
    · by_cases hc : p c
      · rw [if_pos hc] at h; simp at h
      · rw [if_neg hc] at h
        simp only [List.mem_singleton] at h
        simp [h]
    · simp only [List.mem_cons] at h
      rcases h with h | h
      · simp [h]
      · exact List.mem_cons_of_mem c (ih x (hrec ▸ List.mem_cons.2 h))

theorem chain_dropTrailing (R : Char → Char → Prop) (p : Char → Bool) :
    ∀ (l : List Char), List.Chain' R l → List.Chain' R (dropTrailing p l) := by
  intro l
  induction l with
  | nil => intro h; simpa [dropTrailing] using h
  | cons c cs ih =>
    intro h
    rw [dropTrailing_cons]
    rcases hrec : dropTrailing p cs with _ | ⟨d, ds⟩
    · by_cases hc : p c
      · simp [hc]
      · simp [hc]
    · refine List.chain'_cons'.2 ⟨?_, ?_⟩
      · intro y hy
        simp only [List.head?_cons, Option.mem_def, Option.some.injEq] at hy
        have hd : (dropTrailing p cs).head? = some d := by rw [hrec]; rfl
        have hcs : cs.head? = some d := head_dropTrailing p cs d hd
        have hr := (List.chain'_cons'.1 h).1 d (by rw [Option.mem_def, hcs])
        rwa [hy] at hr
      · have := ih h.tail
        rwa [hrec] at this

theorem getLast_dropTrailing (p : Char → Bool) :
    ∀ (l : List Char) (x : Char),
      (dropTrailing p l).getLast? = some x → p x = false := by
  intro l
  induction l with
  | nil => intro x h; simp [dropTrailing] at h
  | cons c cs ih =>
    intro x h
    rw [dropTrailing_cons] at h
    rcases hrec : dropTrailing p cs with _ | ⟨d, ds⟩ <;> rw [hrec] at h
    · by_cases hc : p c
      · rw [if_pos hc] at h; simp at h
      · rw [if_neg hc] at h
        simp only [List.getLast?_singleton, Option.some.injEq] at h
        subst h
        simpa using hc
    · rw [List.getLast?_cons_cons] at h
      exact ih x (hrec ▸ h)

/-- The characters that can appear in a sanitized filename: word
    characters, the space, and ( ) . - . -/
def outClass (c : Char) : Bool :=
  isWordChar c || c = ' ' || c = '(' || c = ')' || c = '.' || c = '-'

/-- The invariants of every sanitize_filename output. -/
def goodOut (l : List Char) : Prop :=
  l ≠ [] ∧
  (∀ x ∈ l, outClass x = true) ∧
  List.Chain' (fun a b => ¬(pyIsSpace a = true ∧ pyIsSpace b = true)) l ∧
  List.Chain' (fun a b => ¬(a = '_' ∧ b = '_')) l ∧
  (∀ x, l.head? = some x → stripSet x = false) ∧
  (∀ x, l.getLast? = some x → stripSet x = false)

theorem mem_sanitizeCore (l : List Char) (x : Char)
    (h : x ∈ sanitizeCore l) : outClass x = true := by
  unfold sanitizeCore stripChars at h
  have h6 := (List.dropWhile_sublist (l := (collapseAux (fun c => c = '_') '_'
      false (collapseAux pyIsSpace ' ' false (collapseAux
        (fun c => !(keepChar c)) '_' false (replaceSeps l))))) stripSet).subset
    (mem_dropTrailing _ _ _ h)
  rcases mem_collapseAux _ _ _ _ _ h6 with h' | ⟨_, h5⟩
  · subst h'; decide
  · rcases mem_collapseAux _ _ _ _ _ h5 with h' | ⟨hsp, h4⟩
    · subst h'; decide
    · rcases mem_collapseAux _ _ _ _ _ h4 with h' | ⟨hq1, _⟩
      · subst h'; decide
      · have hk : keepChar x = true := by simpa using hq1
        rw [keepChar, hsp] at hk
        simp only [Bool.or_eq_true, Bool.false_or,
          Bool.or_false] at hk
        simp only [outClass, Bool.or_eq_true]
        tauto

theorem chainSpace_sanitizeCore (l : List Char) :
    List.Chain' (fun a b => ¬(pyIsSpace a = true ∧ pyIsSpace b = true))
      (sanitizeCore l) := by
  unfold sanitizeCore stripChars
  apply chain_dropTrailing
  apply chain_dropWhile
  apply chain_collapseAux_preserve
  · intro x
    rintro ⟨-, hcon⟩
    revert hcon
    decide
  · intro x
    rintro ⟨hcon, -⟩
    revert hcon
    decide
  · exact chain_collapseAux pyIsSpace ' ' _ false

theorem chainUnderscore_sanitizeCore (l : List Char) :
    List.Chain' (fun a b => ¬(a = '_' ∧ b = '_')) (sanitizeCore l) := by
  unfold sanitizeCore stripChars
  apply chain_dropTrailing
  apply chain_dropWhile
  have h6 := chain_collapseAux (fun c => c = '_') '_'
    (collapseAux pyIsSpace ' ' false (collapseAux
      (fun c => !(keepChar c)) '_' false (replaceSeps l))) false
  refine h6.imp ?_
  intro a b h
  rintro ⟨ha, hb⟩
  exact h (by simp [ha, hb])

theorem head_sanitizeCore (l : List Char) (x : Char)
    (h : (sanitizeCore l).head? = some x) : stripSet x = false := by
  unfold sanitizeCore stripChars at h
  exact head_dropWhile stripSet _ x (head_dropTrailing _ _ x h)

theorem getLast_sanitizeCore (l : List Char) (x : Char)
    (h : (sanitizeCore l).getLast? = some x) : stripSet x = false :=
  getLast_dropTrailing stripSet _ x h

theorem goodOut_file : goodOut ("file".toList) := by
  have hfile : "file".toList = ['f', 'i', 'l', 'e'] := rfl
  refine ⟨by decide, by decide, ?_, ?_, ?_, ?_⟩
  · rw [hfile]
    exact List.chain'_cons.2 ⟨by decide, List.chain'_cons.2 ⟨by decide,
      List.chain'_cons.2 ⟨by decide, List.chain'_singleton _⟩⟩⟩
  · rw [hfile]
    exact List.chain'_cons.2 ⟨by decide, List.chain'_cons.2 ⟨by decide,
      List.chain'_cons.2 ⟨by decide, List.chain'_singleton _⟩⟩⟩
  · intro x hx
    rw [show ("file".toList.head? = some 'f') from rfl] at hx
    injection hx with hx
    subst hx
    decide
  · intro x hx
    rw [show ("file".toList.getLast? = some 'e') from rfl] at hx
    injection hx with hx
    subst hx
    decide

/-- Every value of sanitize_filename satisfies the output invariants. -/
theorem sanitize_goodOut (s : String) :
    goodOut (sanitize_filename s).toList := by
  unfold sanitize_filename
  by_cases h1 : stripChars pyIsSpace s.toList = []
  · rw [if_pos h1]; exact goodOut_file
  · rw [if_neg h1]
    by_cases h2 : sanitizeCore (stripChars pyIsSpace s.toList) = []
    · rw [if_pos h2]; exact goodOut_file
    · rw [if_neg h2]
      refine ⟨h2, ?_, ?_, ?_, ?_, ?_⟩
      · intro x hx
        exact mem_sanitizeCore _ x hx
      · exact chainSpace_sanitizeCore _
      · exact chainUnderscore_sanitizeCore _
      · intro x hx
        exact head_sanitizeCore _ x hx
      · intro x hx
        exact getLast_sanitizeCore _ x hx

/-! ## Idempotence machinery: each sanitize stage fixes a good output -/

theorem map_eq_self_of (f : Char → Char) :
    ∀ l : List Char, (∀ c ∈ l, f c = c) → l.map f = l := by
  intro l
  induction l with
  | nil => intro _; rfl
  | cons c cs ih =>
    intro h
    rw [List.map_cons, h c (List.mem_cons_self c cs),
      ih (fun x hx => h x (List.mem_cons_of_mem c hx))]

theorem collapseAux_eq_self_of_not (p : Char → Bool) (u : Char) :
    ∀ (l : List Char) (b : Bool), (∀ c ∈ l, p c = false) →
      collapseAux p u b l = l := by
  intro l
  induction l with
  | nil => intro b _; rfl
  | cons c cs ih =>
    intro b h
    have hc : p c = false := h c (List.mem_cons_self c cs)
    simp only [collapseAux, hc, Bool.false_eq_true, if_false]
    rw [ih false (fun x hx => h x (List.mem_cons_of_mem c hx))]

theorem collapseAux_eq_self (p : Char → Bool) (u : Char) :
    ∀ (l : List Char) (b : Bool), (∀ c ∈ l, p c = true → c = u) →
      List.Chain' (fun a c => ¬(p a = true ∧ p c = true)) l →
      (b = true → ∀ x, l.head? = some x → p x = false) →
      collapseAux p u b l = l := by
  intro l
  induction l with
  | nil => intro b _ _ _; rfl
  | cons c cs ih =>
    intro b hall hch hb
    have hall' : ∀ x ∈ cs, p x = true → x = u :=
      fun x hx => hall x (List.mem_cons_of_mem c hx)
    by_cases hc : p c
    · have hcu : c = u := hall c (List.mem_cons_self c cs) hc
      have hhead : ∀ x, cs.head? = some x → p x = false := by
        intro x hx
        have := (List.chain'_cons'.1 hch).1 x (by rw [Option.mem_def, hx])
        by_cases hpx : p x = true
        · exact absurd ⟨hc, hpx⟩ this
        · simpa using hpx
      cases b with
      | true => exact absurd (hb rfl c rfl) (by simp [hc])
      | false =>
        simp only [collapseAux, hc, if_true, if_neg Bool.false_ne_true]
        rw [ih true hall' hch.tail (fun _ => hhead), hcu]
    · simp only [collapseAux, hc, Bool.false_eq_true, if_false]
      rw [ih false hall' hch.tail (fun h => absurd h Bool.false_ne_true)]

theorem dropWhile_eq_self_of (p : Char → Bool) (l : List Char)
    (h : ∀ x, l.head? = some x → p x = false) : l.dropWhile p = l := by
  cases l with
  | nil => rfl
  | cons c cs =>
    rw [List.dropWhile_cons, if_neg (by simp [h c rfl])]

theorem dropTrailing_eq_self_of (p : Char → Bool) :
    ∀ l : List Char, (∀ x, l.getLast? = some x → p x = false) →
      dropTrailing p l = l := by
  intro l
  induction l with
  | nil => intro _; rfl
  | cons c cs ih =>
    intro h
    cases cs with
    | nil =>
      simp only [dropTrailing]
      rw [if_neg (by simp [h c rfl])]
    | cons d ds =>
      rw [dropTrailing_cons,
        ih (fun x hx => h x (by rwa [List.getLast?_cons_cons]))]

theorem outClass_keep (c : Char) (h : outClass c = true) : keepChar c = true := by
  simp only [outClass, Bool.or_eq_true, decide_eq_true_eq] at h
  rcases h with ((((hw | hs) | h1) | h2) | h3) | h4
  · simp [keepChar, hw]
  · subst hs; decide
  · subst h1; decide
  · subst h2; decide
  · subst h3; decide
  · subst h4; decide

theorem outClass_space (c : Char) (ho : outClass c = true)
    (hs : pyIsSpace c = true) : c = ' ' := by
  simp only [pyIsSpace, Bool.or_eq_true, decide_eq_true_eq] at hs
  rcases hs with ((((h | h) | h) | h) | h) | h <;> subst h
  · rfl
  all_goals (revert ho; decide)

theorem outClass_notSpace (c : Char) (ho : outClass c = true)
    (hs : stripSet c = false) : pyIsSpace c = false := by
  by_cases h : pyIsSpace c = true
  · have hc := outClass_space c ho h
    subst hc
    exact absurd hs (by decide)
  · simpa using h

theorem outClass_notSep (c : Char) (ho : outClass c = true) :
    (if c = '/' then '_' else c) = c ∧
    (if c = '\\' then '_' else c) = c ∧
    (if c = ':' then '_' else c) = c := by
  refine ⟨?_, ?_, ?_⟩ <;>
    (rw [if_neg]; intro h; subst h; revert ho; decide)

/-- sanitizeCore fixes every list satisfying the output invariants. -/
theorem sanitizeCore_eq_self (l : List Char) (hg : goodOut l) :
    sanitizeCore l = l := by
  obtain ⟨-, hmem, hchS, hchU, hhead, hlast⟩ := hg
  have hrep : replaceSeps l = l := by
    unfold replaceSeps
    rw [map_eq_self_of _ l (fun c hc => (outClass_notSep c (hmem c hc)).1),
      map_eq_self_of _ l (fun c hc => (outClass_notSep c (hmem c hc)).2.1),
      map_eq_self_of _ l (fun c hc => (outClass_notSep c (hmem c hc)).2.2)]
  have h4 : collapseAux (fun c => !(keepChar c)) '_' false l = l := by
    apply collapseAux_eq_self_of_not
    intro c hc
    simp [outClass_keep c (hmem c hc)]
  have h5 : collapseAux pyIsSpace ' ' false l = l := by
    apply collapseAux_eq_self
    · intro c hc hs
      exact outClass_space c (hmem c hc) hs
    · exact hchS
    · intro h
      exact absurd h Bool.false_ne_true
  have h6 : collapseAux (fun c => c = '_') '_' false l = l := by
    apply collapseAux_eq_self
    · intro c _ hc
      simpa using hc
    · refine hchU.imp ?_
      intro a b h hcon
      exact h ⟨by simpa using hcon.1, by simpa using hcon.2⟩
    · intro h
      exact absurd h Bool.false_ne_true
  have hstrip : stripChars stripSet l = l := by
    unfold stripChars
    rw [dropWhile_eq_self_of stripSet l hhead,
      dropTrailing_eq_self_of stripSet l hlast]
  unfold sanitizeCore
  rw [hrep, h4, h5, h6, hstrip]

theorem stripSpace_eq_self (l : List Char) (hg : goodOut l) :
    stripChars pyIsSpace l = l := by
  obtain ⟨-, hmem, -, -, hhead, hlast⟩ := hg
  unfold stripChars
  have hh : ∀ x, l.head? = some x → pyIsSpace x = false := by
    intro x hx
    exact outClass_notSpace x (hmem x (List.mem_of_mem_head? (by rw [Option.mem_def, hx])))
      (hhead x hx)
  have hl : ∀ x, l.getLast? = some x → pyIsSpace x = false := by
    intro x hx
    exact outClass_notSpace x (hmem x (List.mem_of_getLast?_eq_some hx)) (hlast x hx)
  rw [dropWhile_eq_self_of pyIsSpace l hh, dropTrailing_eq_self_of pyIsSpace l hl]

theorem sanitize_eq_self_of_good (l : List Char) (hg : goodOut l) :
    sanitize_filename (String.mk l) = String.mk l := by
  unfold sanitize_filename
  have htl : (String.mk l).toList = l := rfl
  rw [htl, stripSpace_eq_self l hg, sanitizeCore_eq_self l hg,
    if_neg hg.1, if_neg hg.1]

/-! ## Link parsing (scripts/rcdtool_from_messages.py lines 178-202) -/

/-- The _is_numlike helper: s.lstrip("+-").isdigit().  Python lstrip
    removes every leading "+" or "-", and isdigit demands a non-empty
    all-digit remainder (ASCII digits in this model). -/
def lstripSigns (s : String) : String :=
  String.mk (s.toList.dropWhile (fun c => c = '+' || c = '-'))

def isNumlike (s : String) : Bool :=
  !(lstripSigns s).toList.isEmpty && (lstripSigns s).toList.all Char.isDigit

/-- The path segments the link code inspects: everything after the
    first "/c/", with the query string (after "?") and fragment (after
    "#") removed, split on "/" keeping only non-empty parts. -/
def linkParts (link : String) : List String :=
  ((beforeFirst "#" (beforeFirst "?" (afterFirst "/c/" link))).splitOn
    "/").filter (fun p => p ≠ "")

/-- The (channel_id, message_id) extraction of main(), translated
    branch by branch.  The code first sets message_id from the last
    part, then overwrites it from parts[1] when there are exactly two
    parts; since the two branches of the final length test never mix,
    the two assignments are written as one conditional here. -/
def extractChanMsg (link : String) : Option (String × String) :=
  if containsSub "/c/" link then
    if 2 ≤ (linkParts link).length ∧
        isNumlike ((linkParts link).headD "") = true then
      match (if (linkParts link).length = 2 then
               (if isNumlike ((linkParts link).getD 1 "") = true
                then some ((linkParts link).getD 1 "") else none)
             else
               (if isNumlike ((linkParts link).getLastD "") = true
                then some ((linkParts link).getLastD "") else none)) with
      | some m => some ((linkParts link).headD "", m)
      | none => none
    else none
  else none

/-- The claim's description of the extraction: when the link contains
    "/c/", the query string and fragment are stripped, and the first
    segment is numeric (possibly sign-prefixed) with at least two
    segments present, the pair is (first, second) for exactly two
    segments and (first, last) for three or more; otherwise, or when
    that message segment is not numeric, nothing is extracted. -/
def extractChanMsgSpec (link : String) : Option (String × String) :=
  if containsSub "/c/" link then
    if 2 ≤ (linkParts link).length ∧
        isNumlike ((linkParts link).headD "") = true then
      if isNumlike (if (linkParts link).length = 2
          then (linkParts link).getD 1 "" else (linkParts link).getLastD "")
          = true then
        some ((linkParts link).headD "",
          (if (linkParts link).length = 2
           then (linkParts link).getD 1 "" else (linkParts link).getLastD ""))
      else none
    else none
  else none

theorem extract_eq_spec (link : String) :
    extractChanMsg link = extractChanMsgSpec link := by
  unfold extractChanMsg extractChanMsgSpec
  by_cases h1 : containsSub "/c/" link = true
  · rw [if_pos h1, if_pos h1]
    by_cases h2 : 2 ≤ (linkParts link).length ∧
        isNumlike ((linkParts link).headD "") = true
    · rw [if_pos h2, if_pos h2]
      by_cases h3 : (linkParts link).length = 2
      · rw [if_pos h3, if_pos h3]
        by_cases h4 : isNumlike ((linkParts link).getD 1 "") = true
        · rw [if_pos h4, if_pos h4]
        · rw [if_neg h4, if_neg h4]
      · rw [if_neg h3, if_neg h3]
        by_cases h4 : isNumlike ((linkParts link).getLastD "") = true
        · rw [if_pos h4, if_pos h4]
        · rw [if_neg h4, if_neg h4]
    · rw [if_neg h2, if_neg h2]
  · rw [if_neg h1, if_neg h1]

/-! ## Input line parsing (scripts/rcdtool_from_messages.py lines 156-176) -/

/-- One iteration of the input loop up to the (link, description)
    pair: strip the raw line; skip empty lines and lines starting with
    "#"; split at the first ";" and strip both halves, or take the
    whole line with an empty description; skip when the link half is
    empty. -/
def parseLine (raw : String) : Option (String × String) :=
  if pyStrip raw = "" then none
  else if (pyStrip raw).toList.head? = some '#' then none
  else
    let pr :=
      if containsSub ";" (pyStrip raw) then
        (pyStrip (beforeFirst ";" (pyStrip raw)),
         pyStrip (afterFirst ";" (pyStrip raw)))
      else (pyStrip raw, "")
    if pr.1 = "" then none else some pr

/-- The claim's description of line handling, written independently:
    blank and comment lines are skipped; a line with ";" is split at
    the first ";" with both parts stripped; a line without ";" is the
    link itself with empty description; an empty link half skips the
    line. -/
def parseLineSpec (raw : String) : Option (String × String) :=
  let line := pyStrip raw
  if line = "" ∨ line.toList.head? = some '#' then none
  else if containsSub ";" line then
    if pyStrip (beforeFirst ";" line) = "" then none
    else some (pyStrip (beforeFirst ";" line), pyStrip (afterFirst ";" line))
  else some (line, "")

theorem parseLine_eq_spec (raw : String) :
    parseLine raw = parseLineSpec raw := by
  unfold parseLine parseLineSpec
  by_cases h1 : pyStrip raw = ""
  · simp [h1]
  · by_cases h2 : (pyStrip raw).toList.head? = some '#'
    · have h2' : (pyStrip raw).data.head? = some '#' := h2
      simp [h1, h2']
    · have h2' : ¬(pyStrip raw).data.head? = some '#' := h2
      by_cases h3 : containsSub ";" (pyStrip raw) = true
      · by_cases h4 : pyStrip (beforeFirst ";" (pyStrip raw)) = ""
        · simp [h1, h2', h3, h4]
        · simp [h1, h2', h3, h4]
      · simp [h1, h2', h3]

/-! ## Filename deduplication (main() lines 156-212)

generate_unique_filename lives in rcdtool/main.py, which is not among
the repository sources given here (only its caller in
scripts/rcdtool_from_messages.py is).  It is modelled from the spec. -/

/-- The decimal digit character for n mod 10. -/
def digitChar (n : Nat) : Char :=
  Char.ofNat (48 + n % 10)

/-- Decimal digit list of a natural number, most significant first. -/
def natDigits (n : Nat) : List Char :=
  if h : n < 10 then [digitChar n]
  else
    have : n / 10 < n := Nat.div_lt_self (by omega) (by omega)
    natDigits (n / 10) ++ [digitChar (n % 10)]

theorem digitChar_inj (a b : Nat) (ha : a < 10) (hb : b < 10)
    (h : digitChar a = digitChar b) : a = b := by
  interval_cases a <;> interval_cases b <;> simp_all <;> revert h <;> decide

theorem natDigits_ne_nil (n : Nat) : natDigits n ≠ [] := by
  unfold natDigits
  split
  · simp
  · simp

theorem natDigits_small (n : Nat) (h : n < 10) :
    natDigits n = [digitChar n] := by
  rw [natDigits]
  exact dif_pos h

theorem natDigits_large (n : Nat) (h : ¬n < 10) :
    natDigits n = natDigits (n / 10) ++ [digitChar (n % 10)] := by
  rw [natDigits]
  exact dif_neg h

theorem natDigits_inj : ∀ m n : Nat, natDigits m = natDigits n → m = n := by
  intro m
  induction m using Nat.strong_induction_on with
  | _ m ih =>
    intro n h
    by_cases hm : m < 10 <;> by_cases hn : n < 10
    · rw [natDigits_small m hm, natDigits_small n hn] at h
      simp only [List.cons.injEq, and_true] at h
      exact digitChar_inj m n hm hn h
    · rw [natDigits_small m hm, natDigits_large n hn] at h
      have := congrArg List.length h
      simp at this
      have hne := natDigits_ne_nil (n / 10)
      cases hd : natDigits (n / 10) with
      | nil => exact absurd hd hne
      | cons c cs => rw [hd] at this; simp at this
    · rw [natDigits_large m hm, natDigits_small n hn] at h
      have := congrArg List.length h
      simp at this
      have hne := natDigits_ne_nil (m / 10)
      cases hd : natDigits (m / 10) with
      | nil => exact absurd hd hne
      | cons c cs => rw [hd] at this; simp at this
    · rw [natDigits_large m hm, natDigits_large n hn] at h
      have hsplit := List.append_inj' h (by rfl)
      have h1 : m / 10 = n / 10 :=
        ih (m / 10) (Nat.div_lt_self (by omega) (by omega)) (n / 10) hsplit.1
      have h2 : m % 10 = n % 10 := by
        have := hsplit.2
        simp only [List.cons.injEq, and_true] at this
        exact digitChar_inj (m % 10) (n % 10) (Nat.mod_lt _ (by omega))
          (Nat.mod_lt _ (by omega)) this
      omega

/-- Candidate name number n: base for n = 0, otherwise base(n). -/
def candName (base : String) : Nat → String
  | 0 => base
  | Nat.succ n =>
    String.mk (base.toList ++ '(' :: (natDigits (n + 1) ++ [')']))

theorem candName_inj (base : String) : ∀ m n : Nat,
    candName base m = candName base n → m = n := by
  have hlen : ∀ k : Nat, (candName base (k + 1)).toList.length >
      base.toList.length := by
    intro k
    show (base.toList ++ '(' :: (natDigits (k + 1) ++ [')'])).length > _
    simp
  intro m n h
  match m, n with
  | 0, 0 => rfl
  | 0, Nat.succ n =>
    have := hlen n
    rw [← h] at this
    exact absurd this (by simp [candName])
  | Nat.succ m, 0 =>
    have := hlen m
    rw [h] at this
    exact absurd this (by simp [candName])
  | Nat.succ m, Nat.succ n =>
    have hdata : base.toList ++ '(' :: (natDigits (m + 1) ++ [')']) =
        base.toList ++ '(' :: (natDigits (n + 1) ++ [')']) := by
      have := congrArg String.toList h
      exact this
    have h1 := List.append_cancel_left hdata
    simp only [List.cons.injEq, true_and] at h1
    have h2 := (List.append_inj' h1 (by rfl)).1
    have := natDigits_inj (m + 1) (n + 1) h2
    omega

theorem candName_injective (base : String) :
    Function.Injective (candName base) := by
  intro m n h
  exact candName_inj base m n h

/-- The candidates tried by the generator, in order. -/
def candList (base : String) (k : Nat) : List String :=
  (List.range (k + 1)).map (candName base)

theorem candList_nodup (base : String) (k : Nat) :
    (candList base k).Nodup :=
  (List.nodup_range (k + 1)).map (candName_injective base)

/-- First candidate not in the exclude list ("" if all are taken,
    which theorem candList_exists_free shows cannot happen). -/
def firstFree (exclude : List String) : List String → String
  | [] => ""
  | c :: cs => if c ∈ exclude then firstFree exclude cs else c

theorem firstFree_not_mem (exclude : List String) :
    ∀ cands : List String, (∃ c ∈ cands, c ∉ exclude) →
      firstFree exclude cands ∉ exclude := by
  intro cands
  induction cands with
  | nil => rintro ⟨c, hc, -⟩; simp at hc
  | cons c cs ih =>
    rintro ⟨d, hd, hdx⟩
    by_cases hc : c ∈ exclude
    · simp only [firstFree, if_pos hc]
      apply ih
      rcases List.mem_cons.1 hd with rfl | hd'
      · exact absurd hc hdx
      · exact ⟨d, hd', hdx⟩
    · simpa only [firstFree, if_neg hc] using hc

theorem candList_exists_free (base : String) (exclude : List String) :
    ∃ c ∈ candList base exclude.length, c ∉ exclude := by
  by_contra hcon
  push_neg at hcon
  have hsub : candList base exclude.length ⊆ exclude := fun c hc => hcon c hc
  have h1 : (candList base exclude.length).toFinset.card =
      exclude.length + 1 := by
    rw [List.toFinset_card_of_nodup (candList_nodup base exclude.length)]
    simp [candList]
  have h2 : (candList base exclude.length).toFinset ⊆ exclude.toFinset := by
    intro x hx
    rw [List.mem_toFinset] at hx ⊢
    exact hsub hx
  have h3 := Finset.card_le_card h2
  have h4 := List.toFinset_card_le (l := exclude)
  omega

/-- Modelled from the spec: generate_unique_filename from
    rcdtool/main.py is not among the given sources; per the spec's
    "sanitizing free-text descriptions into filesystem-safe basenames
    with deduplication" it returns a name based on the description
    (with the channel/message suffix when detailed_name is set) that
    is not in the exclude list, trying numbered variants in order. -/
def generate_unique_filename (output_filename : String)
    (detailed_name : Bool) (suffix2 : String)
    (exclude : List String) : String :=
  firstFree exclude
    (candList (if detailed_name then output_filename ++ suffix2
               else output_filename) exclude.length)

theorem generate_unique_filename_not_mem (output_filename : String)
    (detailed_name : Bool) (suffix2 : String) (exclude : List String) :
    generate_unique_filename output_filename detailed_name suffix2
      exclude ∉ exclude :=
  firstFree_not_mem exclude _ (candList_exists_free _ exclude)

/-- The part of one main() loop iteration that decides whether a line
    produces an inproc download: parse the line, build the sanitized
    base name ("file" for an empty description), and extract the
    channel/message pair.  Lines that are skipped or that fall back to
    the subprocess path yield none and do not touch the exclude list. -/
def lineToJob (line : String) : Option (String × String × String) :=
  match parseLine line with
  | none => none
  | some (link, desc) =>
    match extractChanMsg link with
    | some (c, m) =>
      some ((if desc ≠ "" then sanitize_filename desc else "file"), c, m)
    | none => none

/-- The inproc loop of main(): for each line that produces a job,
    generate a unique output name against the exclude list and append
    it to the exclude list for the following lines.  Returns the final
    output filenames in order. -/
def processLines (detailed : Bool) : List String → List String → List String
  | _, [] => []
  | exclude, line :: rest =>
    match lineToJob line with
    | none => processLines detailed exclude rest
    | some (base, c, m) =>
      firstOut detailed exclude base c m ::
        processLines detailed
          (exclude ++ [firstOut detailed exclude base c m]) rest
where
  /-- The final_output of one loop iteration. -/
  firstOut (detailed : Bool) (exclude : List String)
      (base c m : String) : String :=
    generate_unique_filename base detailed
      ("-" ++ c ++ "-" ++ m) exclude

theorem processLines_nodup_aux (detailed : Bool) :
    ∀ (lines exclude : List String),
      (processLines detailed exclude lines).Nodup ∧
      (∀ o ∈ processLines detailed exclude lines, o ∉ exclude) := by
  intro lines
  induction lines with
  | nil => intro exclude; simp [processLines]
  | cons line rest ih =>
    intro exclude
    rcases hjob : lineToJob line with - | ⟨base, c, m⟩
    · simp only [processLines, hjob]
      exact ih exclude
    · simp only [processLines, hjob]
      set fo := processLines.firstOut detailed exclude base c m with hfo
      have hmem : fo ∉ exclude := by
        rw [hfo]
        exact generate_unique_filename_not_mem base detailed
          ("-" ++ c ++ "-" ++ m) exclude
      obtain ⟨hnd, hnm⟩ := ih (exclude ++ [fo])
      refine ⟨List.nodup_cons.2 ⟨?_, hnd⟩, ?_⟩
      · intro hcon
        have := hnm fo hcon
        simp at this
      · intro o ho
        rcases List.mem_cons.1 ho with rfl | ho'
        · exact hmem
        · intro hcon
          exact (hnm o ho') (List.mem_append_left _ hcon)

/-! ## Extension inference (src/rcdtool/rcdtool.py lines 270-281)

The tail of the non-paid-media branch of download_media: after the
download, when infer_extension is set and filetype.guess returns a
type, the file is renamed by appending "." and the extension and the
new name is returned; otherwise the original name is kept and
returned.  The pair holds (name of the file on disk, returned value):
os.rename moves the downloaded file to the new name. -/
def finish_download (output_filename : String) (infer_extension : Bool)
    (guessed : Option String) : String × String :=
  if infer_extension then
    match guessed with
    | some e =>
      (output_filename ++ "." ++ e, output_filename ++ "." ++ e)
    | none => (output_filename, output_filename)
  else (output_filename, output_filename)

/-! ## Progress throttling (src/rcdtool/rcdtool.py lines 194-226)

The _progress closure keeps last_t (initially 0.0) and last_b
(initially 0) in the enclosing scope.  Times are modelled as exact
rationals. -/

structure ProgressState where
  last_t : ℚ
  last_b : Int
deriving DecidableEq, Repr

/-- One invocation of _progress: at the first call (last_t still 0.0)
    record time and bytes without logging; afterwards log only when at
    least one second has passed since the stored time, updating the
    stored values on each log.  The Bool reports whether a progress
    line was logged. -/
def progress_step (st : ProgressState) (now : ℚ) (bytes : Int) :
    ProgressState × Bool :=
  if st.last_t = 0 then ({ last_t := now, last_b := bytes }, false)
  else if 1 ≤ now - st.last_t then ({ last_t := now, last_b := bytes }, true)
  else (st, false)

/-- Run _progress over a list of (time, bytes) invocations, returning
    the times at which a progress line was logged. -/
def runProgress (st : ProgressState) : List (ℚ × Int) → List ℚ
  | [] => []
  | (now, b) :: rest =>
    if (progress_step st now b).2 then
      now :: runProgress (progress_step st now b).1 rest
    else runProgress (progress_step st now b).1 rest

theorem runProgress_cons (st : ProgressState) (now : ℚ) (b : Int)
    (rest : List (ℚ × Int)) :
    runProgress st ((now, b) :: rest) =
      (if (progress_step st now b).2 then
        now :: runProgress (progress_step st now b).1 rest
      else runProgress (progress_step st now b).1 rest) := rfl

theorem runProgress_spacing (calls : List (ℚ × Int)) :
    ∀ st : ProgressState, (∀ p ∈ calls, 0 < p.1) →
      List.Chain' (fun a b => a + 1 ≤ b) (runProgress st calls) ∧
      (st.last_t ≠ 0 → ∀ e, (runProgress st calls).head? = some e →
        st.last_t + 1 ≤ e) := by
  induction calls with
  | nil => intro st _; exact ⟨by simp [runProgress], by simp [runProgress]⟩
  | cons p rest ih =>
    obtain ⟨now, b⟩ := p
    intro st hpos
    have hnow : 0 < now := hpos (now, b) (List.mem_cons_self _ _)
    have hrest : ∀ q ∈ rest, 0 < q.1 :=
      fun q hq => hpos q (List.mem_cons_of_mem _ hq)
    by_cases h0 : st.last_t = 0
    · have hstep : progress_step st now b =
          ({ last_t := now, last_b := b }, false) := by
        unfold progress_step
        rw [if_pos h0]
      have hrun : runProgress st ((now, b) :: rest) =
          runProgress { last_t := now, last_b := b } rest := by
        rw [runProgress_cons, hstep]
        simp
      rw [hrun]
      exact ⟨(ih _ hrest).1, fun hne e he => absurd h0 hne⟩
    · by_cases h1 : 1 ≤ now - st.last_t
      · have hstep : progress_step st now b =
            ({ last_t := now, last_b := b }, true) := by
          unfold progress_step
          rw [if_neg h0, if_pos h1]
        have hrun : runProgress st ((now, b) :: rest) =
            now :: runProgress { last_t := now, last_b := b } rest := by
          rw [runProgress_cons, hstep]
          simp
        rw [hrun]
        obtain ⟨hch, hhd⟩ := ih { last_t := now, last_b := b } hrest
        constructor
        · refine List.chain'_cons'.2 ⟨?_, hch⟩
          intro y hy
          rw [Option.mem_def] at hy
          exact hhd (by simpa using ne_of_gt hnow) y hy
        · intro hne e he
          simp only [List.head?_cons, Option.some.injEq] at he
          subst he
          linarith
      · have hstep : progress_step st now b = (st, false) := by
          unfold progress_step
          rw [if_neg h0, if_neg h1]
        have hrun : runProgress st ((now, b) :: rest) =
            runProgress st rest := by
          rw [runProgress_cons, hstep]
          simp
        rw [hrun]
        exact ih st hrest

/-! ## download_file keyword compatibility shim (rcdtool.py 228-258) -/

/-- The optional keyword arguments handled by _dl_file (input_media is
    always passed positionally and is not represented). -/
inductive Kw
  | file
  | part_size_kb
  | progress_callback
  | workers
deriving DecidableEq, Repr

/-- The kwargs dict built by _dl_file for the first call: file,
    part_size_kb and progress_callback always; workers only when the
    inspected signature of download_file has a workers parameter and
    the workers argument or the config default is truthy. -/
def kwargs1 (workersInSig workersTruthy cfgWorkersTruthy : Bool) :
    List Kw :=
  if workersInSig && (workersTruthy || cfgWorkersTruthy) then
    [Kw.file, Kw.part_size_kb, Kw.progress_callback, Kw.workers]
  else [Kw.file, Kw.part_size_kb, Kw.progress_callback]

/-- The successive kwargs sets tried by _dl_file: the full set, the
    set after kwargs.pop('progress_callback'), and the set after
    additionally popping part_size_kb and workers. -/
def dl_attempts (workersInSig workersTruthy cfgWorkersTruthy : Bool) :
    List (List Kw) :=
  [kwargs1 workersInSig workersTruthy cfgWorkersTruthy,
   (kwargs1 workersInSig workersTruthy cfgWorkersTruthy).erase
     Kw.progress_callback,
   (((kwargs1 workersInSig workersTruthy cfgWorkersTruthy).erase
       Kw.progress_callback).erase Kw.part_size_kb).erase Kw.workers]

/-- _dl_file with the library call abstracted by accepts: a call with
    a kwargs set either succeeds (accepts = true) or raises TypeError
    (accepts = false), in which case the next attempt is made; a
    TypeError from the final attempt propagates (result none). -/
def dl_file (accepts : List Kw → Bool)
    (workersInSig workersTruthy cfgWorkersTruthy : Bool) :
    Option (List Kw) :=
  (dl_attempts workersInSig workersTruthy cfgWorkersTruthy).find? accepts

/-! ## download_media control flow (src/rcdtool/rcdtool.py 92-288)

The telethon calls are abstracted as an environment of fallible
results; Except.error stands for a raised exception, the logging side
effects are not modelled.  The body is the code inside the outer try;
download_media itself catches every exception from it, logs and
implicitly returns None. -/

/-- A result of client.get_entity: a Channel with an optional
    access_hash, or any other entity type. -/
inductive TgEntity
  | channel (access_hash : Option Int)
  | notChannel
deriving DecidableEq, Repr

/-- message.media: paid media with its list of extended media items
    (extended items are downloadable, others abort), or ordinary
    media. -/
inductive MediaKind
  | paid (items : List Bool)
  | normal
deriving DecidableEq, Repr

/-- An element of ChannelMessages.messages: a proper Message carrying
    its media and whether it has comment replies, or another type. -/
inductive MsgItem
  | message (media : Option MediaKind) (hasComments : Bool)
  | notMessage
deriving DecidableEq, Repr

/-- A reply to GetDiscussionMessageRequest: a DiscussionMessage whose
    first message carries an optional peer_id, or another type. -/
inductive DiscussionReply
  | discussion (peerIds : List (Option Int))
  | notDiscussion
deriving DecidableEq, Repr

/-- A reply to GetMessagesRequest. -/
inductive MessagesReply
  | channelMessages (msgs : List MsgItem)
  | notChannelMessages
deriving DecidableEq, Repr

/-- The environment of external calls made by download_media, each of
    which either returns a value or raises (Except.error). -/
structure Env where
  entity1 : Except String TgEntity
  reply1 : Except String MessagesReply
  inputEntity : Except String Unit
  discussionReply : Except String DiscussionReply
  entity2 : Except String TgEntity
  reply2 : Except String MessagesReply
  download : Except String Unit
  guessResult : Except String (Option String)
  renameResult : Except String Unit

/-- The arguments of download_media that steer its control flow. -/
structure DlParams where
  dry_mode : Bool
  discussion_message_id : Option Int
  output_filename : String
  infer_extension : Bool

/-- Python truthiness of an Optional[int]: None and 0 are falsy. -/
def truthyOptInt : Option Int → Bool
  | none => false
  | some d => d != 0

/-- The paid-media loop: download each extended item; a non-extended
    item is an early return (None).  Both completing the loop and the
    early return yield None overall, so only the raised/not-raised
    distinction is kept here. -/
def paidLoop (env : Env) : List Bool → Except String Unit
  | [] => Except.ok ()
  | true :: rest => do
    let _ ← env.download
    paidLoop env rest
  | false :: _ => Except.ok ()

/-- The discussion-group branch (lines 138-180): when the message has
    comments, resolve the discussion message and re-fetch the message
    from the discussion channel; the value some m is the new message,
    none is an early return of None. -/
def discussionPart (env : Env) (hasComments : Bool) :
    Except String (Option MsgItem) :=
  if hasComments then do
    let _ ← env.inputEntity
    match ← env.discussionReply with
    | DiscussionReply.notDiscussion => pure none
    | DiscussionReply.discussion peerIds =>
      match peerIds with
      | [] => Except.error "IndexError"
      | none :: _ => pure none
      | some _ :: _ =>
        match ← env.entity2 with
        | TgEntity.notChannel => pure none
        | TgEntity.channel none => pure none
        | TgEntity.channel (some _) =>
          match ← env.reply2 with
          | MessagesReply.notChannelMessages => pure none
          | MessagesReply.channelMessages msgs2 =>
            match msgs2 with
            | [] => Except.error "IndexError"
            | m :: _ => pure (some m)
  else pure none

/-- The body of download_media inside the outer try: every
    logger.warning-then-return branch yields ok none; a raise from any
    awaited call propagates as Except.error. -/
def download_media_body (env : Env) (p : DlParams) :
    Except String (Option String) := do
  match ← env.entity1 with
  | TgEntity.notChannel => pure none
  | TgEntity.channel none => pure none
  | TgEntity.channel (some _) =>
    match ← env.reply1 with
    | MessagesReply.notChannelMessages => pure none
    | MessagesReply.channelMessages msgs =>
      match msgs with
      | [] => Except.error "IndexError"
      | MsgItem.notMessage :: _ => pure none
      | MsgItem.message media hasComments :: _ => do
        let step ←
          (if truthyOptInt p.discussion_message_id then do
            match ← discussionPart env hasComments with
            | none => pure none
            | some MsgItem.notMessage => pure none
            | some (MsgItem.message media2 hc2) =>
              pure (some (media2, hc2))
          else pure (some (media, hasComments)))
        match step with
        | none => pure none
        | some (media, _) =>
          if p.dry_mode then pure (some p.output_filename)
          else
            match media with
            | none => pure none
            | some (MediaKind.paid items) => do
              let _ ← paidLoop env items
              pure none
            | some MediaKind.normal => do
              let _ ← env.download
              if p.infer_extension then
                match ← env.guessResult with
                | some e => do
                  let _ ← env.renameResult
                  pure (some (p.output_filename ++ "." ++ e))
                | none => pure (some p.output_filename)
              else pure (some p.output_filename)

/-- download_media: the whole body runs inside try/except Exception;
    any raise is logged (channel id, message id, output filename,
    infer_extension flag) and the function returns None.  Only the
    returned value is modelled. -/
def download_media_model (env : Env) (p : DlParams) : Option String :=
  match download_media_body env p with
  | Except.ok r => r
  | Except.error _ => none

/-! ## RCD.get_config and RCD.__init__ (src/rcdtool/rcdtool.py 40-59) -/

/-- A raised Python exception, distinguishing FileNotFoundError. -/
inductive PyError
  | fileNotFound (msg : String)
  | other (msg : String)
deriving DecidableEq, Repr

/-- A ConfigParser that has read the listed files. -/
structure ConfigModel where
  read_files : List String
deriving DecidableEq, Repr

/-- RCD.get_config over an abstract filesystem fs_exists: raise
    FileNotFoundError when the config file does not exist, otherwise
    return a ConfigParser object that has read the file. -/
def get_config (fs_exists : String → Bool) (config_filename : String) :
    Except PyError ConfigModel :=
  if !fs_exists config_filename then
    Except.error (PyError.fileNotFound ("Not found: " ++ config_filename))
  else Except.ok { read_files := [config_filename] }

/-- RCD.__init__: read the config, then create the client (modelled
    abstractly); each step may raise. -/
def rcd_init (fs_exists : String → Bool)
    (create_client : ConfigModel → Except PyError Unit)
    (config_filename : String) : Except PyError (ConfigModel × Unit) := do
  let config ← get_config fs_exists config_filename
  let client ← create_client config
  pure (config, client)

def isFileNotFound {α : Type} : Except PyError α → Bool
  | Except.error (PyError.fileNotFound _) => true
  | _ => false

/-! ## The claims -/

/-- Claim C1: the link parser extracts a (channel_id, message_id)
    pair by string splitting exactly as the claim describes: for every
    link containing "/c/", after stripping any query string and
    fragment, if the first path segment after "/c/" is numeric
    (optionally sign-prefixed) and there are at least two segments,
    the pair is (first, second) with exactly two segments and
    (first, last) with three or more, the middle ids being skipped;
    otherwise, or when the relevant segment is not numeric, no pair is
    extracted. -/
theorem claim_C1_link_extraction (link : String) :
    extractChanMsg link = extractChanMsgSpec link :=
  extract_eq_spec link

theorem claim_C1_witness :
    extractChanMsg "https://t.me/c/1234/22/567?single" =
      extractChanMsgSpec "https://t.me/c/1234/22/567?single" :=
  claim_C1_link_extraction "https://t.me/c/1234/22/567?single"

/-- Claim C2: sanitize_filename produces a filesystem-safe basename:
    for every input the result is non-empty, has no "/", "\\" or ":",
    contains only word characters, spaces and ( ) . -, has no run of
    consecutive spaces nor of two or more underscores, neither starts
    nor ends with a space, dot, dash or underscore, and inputs that
    sanitize to nothing yield "file". -/
theorem claim_C2_sanitize_safe (s : String) :
    sanitize_filename s ≠ "" ∧
    (∀ c ∈ (sanitize_filename s).toList,
      isWordChar c = true ∨ c = ' ' ∨ c = '(' ∨ c = ')' ∨ c = '.' ∨
        c = '-') ∧
    '/' ∉ (sanitize_filename s).toList ∧
    '\\' ∉ (sanitize_filename s).toList ∧
    ':' ∉ (sanitize_filename s).toList ∧
    List.Chain' (fun a b => ¬(a = ' ' ∧ b = ' '))
      (sanitize_filename s).toList ∧
    List.Chain' (fun a b => ¬(a = '_' ∧ b = '_'))
      (sanitize_filename s).toList ∧
    (∀ c, (sanitize_filename s).toList.head? = some c →
      ¬(c = ' ' ∨ c = '.' ∨ c = '-' ∨ c = '_')) ∧
    (∀ c, (sanitize_filename s).toList.getLast? = some c →
      ¬(c = ' ' ∨ c = '.' ∨ c = '-' ∨ c = '_')) ∧
    (stripChars pyIsSpace s.toList = [] → sanitize_filename s = "file") ∧
    (sanitizeCore (stripChars pyIsSpace s.toList) = [] →
      sanitize_filename s = "file") := by
  obtain ⟨hne, hmem, hchS, hchU, hhead, hlast⟩ := sanitize_goodOut s
  refine ⟨?_, ?_, ?_, ?_, ?_, ?_, hchU, ?_, ?_, ?_, ?_⟩
  · intro h
    exact hne (by rw [h]; rfl)
  · intro c hc
    have := hmem c hc
    simp only [outClass, Bool.or_eq_true, decide_eq_true_eq] at this
    tauto
  · intro hc
    have := hmem _ hc
    revert this
    decide
  · intro hc
    have := hmem _ hc
    revert this
    decide
  · intro hc
    have := hmem _ hc
    revert this
    decide
  · refine hchS.imp ?_
    intro a b h hab
    refine h ⟨?_, ?_⟩
    · rw [hab.1]; decide
    · rw [hab.2]; decide
  · intro c hc hcon
    have hs := hhead c hc
    rcases hcon with h | h | h | h <;> subst h <;>
      exact absurd hs (by decide)
  · intro c hc hcon
    have hs := hlast c hc
    rcases hcon with h | h | h | h <;> subst h <;>
      exact absurd hs (by decide)
  · intro h
    unfold sanitize_filename
    rw [if_pos h]
  · intro h
    unfold sanitize_filename
    by_cases h1 : stripChars pyIsSpace s.toList = []
    · rw [if_pos h1]
    · rw [if_neg h1, if_pos h]

theorem claim_C2_witness :
    '/' ∉ (sanitize_filename " a/b.mp4 ").toList ∧
    sanitize_filename "   " = "file" :=
  ⟨(claim_C2_sanitize_safe " a/b.mp4 ").2.2.1,
   (claim_C2_sanitize_safe "   ").2.2.2.2.2.2.2.2.2.1 (by decide)⟩

/-- Claim C3: in inproc mode every final output filename is appended
    to the exclude list passed to the generator for later lines, so no
    two lines of one run get the same final output filename: the list
    of final output names produced by the loop has no duplicates. -/
theorem claim_C3_dedup (detailed : Bool) (lines : List String) :
    (processLines detailed [] lines).Nodup :=
  (processLines_nodup_aux detailed lines []).1

theorem claim_C3_witness :
    (processLines false []
      ["https://t.me/c/1/2 ; vid", "https://t.me/c/1/3 ; vid",
       "https://t.me/c/1/4 ; vid"]).Nodup :=
  claim_C3_dedup false
    ["https://t.me/c/1/2 ; vid", "https://t.me/c/1/3 ; vid",
     "https://t.me/c/1/4 ; vid"]

/-- Claim C4: each input line is handled as the claim describes:
    after stripping, blank lines and "#" lines are skipped; a line
    with ";" is split at the first ";" with both halves stripped; a
    line without ";" is the whole line as link with empty description;
    an empty link half skips the line. -/
theorem claim_C4_line_parsing (raw : String) :
    parseLine raw = parseLineSpec raw :=
  parseLine_eq_spec raw

theorem claim_C4_witness :
    parseLine "  https://t.me/c/1/2 ; My File  " =
      parseLineSpec "  https://t.me/c/1/2 ; My File  " :=
  claim_C4_line_parsing "  https://t.me/c/1/2 ; My File  "

/-- Claim C5: with inference enabled and a guessed type, the file is
    renamed by appending a dot and the extension and the new name is
    returned; with inference disabled or no guess, the file keeps its
    name, which is returned.  The pair is (on-disk name, return
    value). -/
theorem claim_C5_infer_extension (fn : String) (inf : Bool)
    (g : Option String) :
    (∀ e, inf = true → g = some e →
      finish_download fn inf g = (fn ++ "." ++ e, fn ++ "." ++ e)) ∧
    (inf = false → finish_download fn inf g = (fn, fn)) ∧
    (g = none → finish_download fn inf g = (fn, fn)) := by
  refine ⟨?_, ?_, ?_⟩
  · intro e hi hg
    subst hi
    subst hg
    rfl
  · intro hi
    subst hi
    rfl
  · intro hg
    subst hg
    cases inf <;> rfl

theorem claim_C5_witness :
    finish_download "out" true (some "mp4") =
      ("out" ++ "." ++ "mp4", "out" ++ "." ++ "mp4") ∧
    finish_download "out" false (some "mp4") = ("out", "out") ∧
    finish_download "out" true none = ("out", "out") :=
  ⟨(claim_C5_infer_extension "out" true (some "mp4")).1 "mp4" rfl rfl,
   (claim_C5_infer_extension "out" false (some "mp4")).2.1 rfl,
   (claim_C5_infer_extension "out" true none).2.2 rfl⟩

/-- Claim C6: the progress callback is throttled to at most one log
    line per second: over any sequence of calls at positive times,
    logged times are at least one second apart; the first invocation
    only records its time and byte count without logging; a log
    happens only when at least one second passed since the stored
    time; and each log stores the new time and byte count. -/
theorem claim_C6_throttle (calls : List (ℚ × Int))
    (hpos : ∀ p ∈ calls, 0 < p.1) :
    List.Chain' (fun a b => a + 1 ≤ b) (runProgress ⟨0, 0⟩ calls) ∧
    (∀ now bytes, progress_step ⟨0, 0⟩ now bytes =
      (⟨now, bytes⟩, false)) ∧
    (∀ st now bytes, (progress_step st now bytes).2 = true →
      st.last_t ≠ 0 ∧ 1 ≤ now - st.last_t) ∧
    (∀ st now bytes, st.last_t ≠ 0 → 1 ≤ now - st.last_t →
      progress_step st now bytes = (⟨now, bytes⟩, true)) := by
  refine ⟨(runProgress_spacing calls ⟨0, 0⟩ hpos).1, ?_, ?_, ?_⟩
  · intro now bytes
    unfold progress_step
    rw [if_pos rfl]
  · intro st now bytes h
    unfold progress_step at h
    by_cases h0 : st.last_t = 0
    · rw [if_pos h0] at h
      simp at h
    · by_cases h1 : 1 ≤ now - st.last_t
      · exact ⟨h0, h1⟩
      · rw [if_neg h0, if_neg h1] at h
        simp at h
  · intro st now bytes h0 h1
    unfold progress_step
    rw [if_neg h0, if_pos h1]

theorem claim_C6_witness :
    List.Chain' (fun a b => a + 1 ≤ b)
      (runProgress ⟨0, 0⟩ [((1 : ℚ), (0 : Int)), (2, 100), (3, 300)]) :=
  (claim_C6_throttle [((1 : ℚ), (0 : Int)), (2, 100), (3, 300)]
    (by intro p hp; fin_cases hp <;> norm_num)).1

/-- Claim C7: the shim passes workers only when the inspected
    signature has it; the retry ladder is exactly: full kwargs, then
    without progress_callback, then additionally without part_size_kb
    and workers, leaving only the file argument (the media argument
    is positional); each TypeError moves to the next attempt. -/
theorem claim_C7_kwargs (w wt ct : Bool) (accepts : List Kw → Bool) :
    (Kw.workers ∈ kwargs1 w wt ct → w = true) ∧
    (dl_attempts w wt ct = [kwargs1 w wt ct,
      (kwargs1 w wt ct).erase Kw.progress_callback, [Kw.file]]) ∧
    ((kwargs1 w wt ct).erase Kw.progress_callback =
      if w && (wt || ct) then [Kw.file, Kw.part_size_kb, Kw.workers]
      else [Kw.file, Kw.part_size_kb]) ∧
    (accepts (kwargs1 w wt ct) = true →
      dl_file accepts w wt ct = some (kwargs1 w wt ct)) ∧
    (accepts (kwargs1 w wt ct) = false →
      accepts ((kwargs1 w wt ct).erase Kw.progress_callback) = true →
      dl_file accepts w wt ct =
        some ((kwargs1 w wt ct).erase Kw.progress_callback)) ∧
    (accepts (kwargs1 w wt ct) = false →
      accepts ((kwargs1 w wt ct).erase Kw.progress_callback) = false →
      dl_file accepts w wt ct =
        (if accepts [Kw.file] then some [Kw.file] else none)) := by
  have hattempts : dl_attempts w wt ct = [kwargs1 w wt ct,
      (kwargs1 w wt ct).erase Kw.progress_callback, [Kw.file]] := by
    by_cases hcond : (w && (wt || ct)) = true
    · unfold dl_attempts kwargs1
      rw [if_pos hcond]
      rfl
    · unfold dl_attempts kwargs1
      rw [if_neg hcond]
      rfl
  refine ⟨?_, hattempts, ?_, ?_, ?_, ?_⟩
  · intro hmem
    by_cases hcond : (w && (wt || ct)) = true
    · simp only [Bool.and_eq_true] at hcond
      exact hcond.1
    · unfold kwargs1 at hmem
      rw [if_neg hcond] at hmem
      exact absurd hmem (by decide)
  · by_cases hcond : (w && (wt || ct)) = true
    · unfold kwargs1
      rw [if_pos hcond, if_pos hcond]
      rfl
    · unfold kwargs1
      rw [if_neg hcond, if_neg hcond]
      rfl
  · intro h1
    unfold dl_file
    rw [hattempts]
    exact List.find?_cons_of_pos _ h1
  · intro h1 h2
    unfold dl_file
    rw [hattempts, List.find?_cons_of_neg _ (by simp [h1])]
    exact List.find?_cons_of_pos _ h2
  · intro h1 h2
    unfold dl_file
    rw [hattempts, List.find?_cons_of_neg _ (by simp [h1]),
      List.find?_cons_of_neg _ (by simp [h2])]
    by_cases h3 : accepts [Kw.file] = true
    · rw [if_pos h3]
      exact List.find?_cons_of_pos _ h3
    · rw [if_neg h3, List.find?_cons_of_neg _ (by simpa using h3)]
      rfl

theorem claim_C7_witness :
    dl_file (fun l => decide (l.length ≤ 2)) false false false =
      some ((kwargs1 false false false).erase Kw.progress_callback) :=
  (claim_C7_kwargs false false false
    (fun l => decide (l.length ≤ 2))).2.2.2.2.1 (by decide) (by decide)

/-- Claim C8: download_media never propagates an exception: any raise
    inside the body yields a None result, and every early-exit branch
    (non-channel entity, missing access hash, non-ChannelMessages
    reply, non-Message item, no media) returns None. -/
theorem claim_C8_no_raise (env : Env) (p : DlParams) :
    (∀ msg, download_media_body env p = Except.error msg →
      download_media_model env p = none) ∧
    (env.entity1 = Except.ok TgEntity.notChannel →
      download_media_model env p = none) ∧
    (env.entity1 = Except.ok (TgEntity.channel none) →
      download_media_model env p = none) ∧
    (∀ ah, env.entity1 = Except.ok (TgEntity.channel (some ah)) →
      env.reply1 = Except.ok MessagesReply.notChannelMessages →
      download_media_model env p = none) ∧
    (∀ ah rest, env.entity1 = Except.ok (TgEntity.channel (some ah)) →
      env.reply1 = Except.ok (MessagesReply.channelMessages
        (MsgItem.notMessage :: rest)) →
      download_media_model env p = none) ∧
    (∀ ah rest hc, env.entity1 = Except.ok (TgEntity.channel (some ah)) →
      env.reply1 = Except.ok (MessagesReply.channelMessages
        (MsgItem.message none hc :: rest)) →
      truthyOptInt p.discussion_message_id = false →
      p.dry_mode = false →
      download_media_model env p = none) := by
  refine ⟨?_, ?_, ?_, ?_, ?_, ?_⟩
  · intro msg h
    unfold download_media_model
    rw [h]
  · intro h
    have hbody : download_media_body env p = Except.ok none := by
      unfold download_media_body
      rw [h]
      rfl
    unfold download_media_model
    rw [hbody]
  · intro h
    have hbody : download_media_body env p = Except.ok none := by
      unfold download_media_body
      rw [h]
      rfl
    unfold download_media_model
    rw [hbody]
  · intro ah h1 h2
    have hbody : download_media_body env p = Except.ok none := by
      unfold download_media_body
      rw [h1, h2]
      rfl
    unfold download_media_model
    rw [hbody]
  · intro ah rest h1 h2
    have hbody : download_media_body env p = Except.ok none := by
      unfold download_media_body
      rw [h1, h2]
      rfl
    unfold download_media_model
    rw [hbody]
  · intro ah rest hc h1 h2 hdisc hdry
    have hbody : download_media_body env p = Except.ok none := by
      unfold download_media_body
      rw [h1, h2, hdisc, hdry]
      rfl
    unfold download_media_model
    rw [hbody]

/-- A concrete environment whose get_entity returns a non-Channel. -/
def envNotChannel : Env :=
  { entity1 := Except.ok TgEntity.notChannel,
    reply1 := Except.ok MessagesReply.notChannelMessages,
    inputEntity := Except.ok (),
    discussionReply := Except.ok DiscussionReply.notDiscussion,
    entity2 := Except.ok TgEntity.notChannel,
    reply2 := Except.ok MessagesReply.notChannelMessages,
    download := Except.ok (),
    guessResult := Except.ok none,
    renameResult := Except.ok () }

theorem claim_C8_witness :
    download_media_model envNotChannel
      { dry_mode := false, discussion_message_id := none,
        output_filename := "out", infer_extension := false } = none :=
  (claim_C8_no_raise envNotChannel
    { dry_mode := false, discussion_message_id := none,
      output_filename := "out", infer_extension := false }).2.1 rfl

/-- Claim C9: sanitize_filename is idempotent. -/
theorem claim_C9_idempotent (s : String) :
    sanitize_filename (sanitize_filename s) = sanitize_filename s :=
  sanitize_eq_self_of_good (sanitize_filename s).toList (sanitize_goodOut s)

theorem claim_C9_witness :
    sanitize_filename (sanitize_filename " My: file!! ") =
      sanitize_filename " My: file!! " :=
  claim_C9_idempotent " My: file!! "

/-- Claim C10: get_config raises FileNotFoundError exactly when the
    config file does not exist; when it exists, a ConfigParser that
    has read the file is returned; so RCD construction with a missing
    config path fails with FileNotFoundError whatever the client
    creation would do. -/
theorem claim_C10_get_config (fs : String → Bool) (fn : String) :
    (isFileNotFound (get_config fs fn) = true ↔ fs fn = false) ∧
    (fs fn = true → get_config fs fn = Except.ok { read_files := [fn] }) ∧
    (∀ cc : ConfigModel → Except PyError Unit, fs fn = false →
      rcd_init fs cc fn =
        Except.error (PyError.fileNotFound ("Not found: " ++ fn))) := by
  refine ⟨⟨?_, ?_⟩, ?_, ?_⟩
  · intro h
    by_cases hf : fs fn = true
    · unfold get_config isFileNotFound at h
      rw [hf] at h
      simp at h
    · simpa using hf
  · intro h
    unfold get_config isFileNotFound
    rw [h]
    rfl
  · intro h
    unfold get_config
    rw [h]
    rfl
  · intro cc h
    unfold rcd_init get_config
    rw [h]
    rfl

theorem claim_C10_witness :
    rcd_init (fun _ => false) (fun _ => Except.ok ()) "config.ini" =
      Except.error (PyError.fileNotFound ("Not found: " ++ "config.ini")) :=
  (claim_C10_get_config (fun _ => false) "config.ini").2.2
    (fun _ => Except.ok ()) rfl

end Rcdtool
